import Mathlib

/-!
# minikube `pkg/minikube/image/image.go`

A shallow embedding of the image-digest helpers and of the image-cache
cleanup, together with the properties the specification states about them.

* Library calls into the docker client and go-containerregistry are oracle
  functions returning the Go pair `(value, error)`; `none` is Go's `nil` error.
  Logging (`glog`) has no effect on results and is left out.
* The operating system is a finite map from absolute paths (lists of path
  segments, the empty list being `/`) to an is-directory flag, plus the log of
  the system calls issued so far.  Operations fail for structural reasons only
  (missing entry, non-empty directory, not a directory, removing `/`); there
  are no permissions and no concurrent writers.
* `filepath.Walk` is transcribed from the Go standard library: `walk` reads the
  sorted names of a directory, calls the callback on the directory, and then
  descends into the names it read.  Recursion depth is bounded by fuel;
  `cleanImageCacheDir` supplies the depth of the file system, and
  `cleanImageCacheDir_total` shows that this is always enough.
-/

namespace Minikube

/-! ## Errors -/

/-- Error numbers the modelled system calls can fail with. -/
inductive Errno where
  | ENOENT
  | ENOTDIR
  | ENOTEMPTY
  | EBUSY
  deriving DecidableEq

/-- Go `error` values that occur in this package. -/
inductive Error where
  /-- `filepath.SkipDir` -/
  | SkipDir
  /-- an `*os.PathError` carrying an errno -/
  | errno (e : Errno)
  /-- the docker client's "no such image" error -/
  | imageNotFound
  /-- any other fault, tagged by its message -/
  | other (msg : String)
  deriving DecidableEq

/-! ## Digest lookup -/

/-- The field of `types.ImageInspect` that the code reads. -/
structure ImageInspect where
  ID : String
  deriving DecidableEq

/-- `client.IsErrImageNotFound`; only called on a non-nil error. -/
def IsErrImageNotFound : Option Error → Bool
  | some .imageNotFound => true
  | _ => false

/-- `DigestByLocalDaemon`, lines 22-31. The client is its
`ImageInspectWithRaw` method (a timeout surfaces as an error of that call). -/
def DigestByLocalDaemon (ImageInspectWithRaw : String → ImageInspect × Option Error)
    (imgName : String) : String :=
  let (img, err) := ImageInspectWithRaw imgName
  if err ≠ none ∧ ¬ IsErrImageNotFound err then
    ""
  else
    img.ID

/-- What the docker daemon can answer to an inspect call: the image, "no such
image", or any other failure (with whatever had been decoded by then). -/
inductive InspectResponse where
  | found (img : ImageInspect)
  | notFound
  | fault (msg : String) (decoded : ImageInspect)
  deriving DecidableEq

/-- The Go values `client.ImageInspectWithRaw` returns for a response. With a
"no such image" error the docker client returns the zero `types.ImageInspect`. -/
def InspectResponse.toGo : InspectResponse → ImageInspect × Option Error
  | .found img => (img, none)
  | .notFound => (⟨""⟩, some .imageNotFound)
  | .fault msg decoded => (decoded, some (.other msg))

/-- The reference the specification gives for `DigestByLocalDaemon`: the
reported identifier when the image is found, the empty string otherwise. -/
def DigestByLocalDaemon_reference : InspectResponse → String
  | .found img => img.ID
  | .notFound => ""
  | .fault _ _ => ""

/-- `v1.Hash`. -/
structure Hash where
  Algorithm : String
  Hex : String
  deriving DecidableEq

/-- A `v1.Image`: the result of its `ConfigName` method. -/
structure Image where
  ConfigName : Hash × Option Error
  deriving DecidableEq

/-- A `name.Reference`. -/
structure Reference where
  Name : String
  deriving DecidableEq

/-- The three library lookups `retrieveImage` can make: the local daemon, the
registry with the default keychain, the registry anonymously. -/
inductive Lookup where
  | daemon
  | remoteKeychain
  | remoteAnonymous
  deriving DecidableEq

/-- The go-containerregistry entry points used by the package. -/
structure Registry where
  /-- `name.ParseReference(imgName, name.WeakValidation)` -/
  ParseReference : String → Reference × Option Error
  /-- `daemon.Image(ref)` -/
  daemonImage : Reference → Image × Option Error
  /-- `remote.Image(ref, remote.WithAuthFromKeychain(authn.DefaultKeychain))` -/
  remoteImageKeychain : Reference → Image × Option Error
  /-- `remote.Image(ref)` -/
  remoteImage : Reference → Image × Option Error

/-- `retrieveImage`, lines 56-76. The first component lists the lookups that
were made, in order. -/
def retrieveImage (lib : Registry) (ref : Reference) : List Lookup × (Image × Option Error) :=
  let (img, err) := lib.daemonImage ref
  if err = none then
    ([.daemon], (img, none))
  else
    let (img, err) := lib.remoteImageKeychain ref
    if err = none then
      ([.daemon, .remoteKeychain], (img, none))
    else
      let (img, err) := lib.remoteImage ref
      ([.daemon, .remoteKeychain, .remoteAnonymous], (img, err))

/-- `DigestByRetrieve`, lines 35-54. -/
def DigestByRetrieve (lib : Registry) (imgName : String) : String :=
  let (ref, err) := lib.ParseReference imgName
  if err ≠ none then
    ""
  else
    let (_, img, err) := retrieveImage lib ref
    if err ≠ none then
      ""
    else
      let (cf, err) := img.ConfigName
      if err ≠ none then
        cf.Hex
      else
        cf.Hex

/-! ## File system -/

/-- An absolute, cleaned path: its segments from `/`. -/
abbrev Path := List String

/-- `os.FileInfo`, reduced to `IsDir()`. -/
structure FileInfo where
  IsDir : Bool
  deriving DecidableEq

/-- A system call, as recorded in the log. -/
inductive Syscall where
  | lstat (p : Path)
  | readdir (p : Path)
  | remove (p : Path)
  deriving DecidableEq

/-- The state of the file system: which paths exist (with their is-directory
flag) and the system calls made so far, oldest first. -/
structure FS where
  entries : List (Path × Bool)
  calls : List Syscall
  deriving DecidableEq

/-- What is at a path: `some true` a directory, `some false` any other entry,
`none` nothing. -/
def FS.kind (fs : FS) (p : Path) : Option Bool :=
  (fs.entries.find? (fun e => decide (e.1 = p))).map (fun e => e.2)

/-- The name of `q` inside `p`, when `q` is an immediate child of `p`. -/
def childName (p q : Path) : Option String :=
  if q.dropLast = p then q.getLast? else none

/-- The names of the entries of `p`. -/
def FS.names (fs : FS) (p : Path) : List String :=
  (fs.entries.filterMap (fun e => childName p e.1)).dedup

/-- Every entry lies in a directory: all proper ancestors of an existing path
are directories. -/
def FS.WF (fs : FS) : Prop :=
  ∀ e ∈ fs.entries, ∀ a ∈ e.1.inits, a ≠ e.1 → fs.kind a = some true

instance (fs : FS) : Decidable fs.WF := by
  unfold FS.WF; infer_instance

/-- Append a call to the log. -/
def FS.log (fs : FS) (c : Syscall) : FS := ⟨fs.entries, fs.calls ++ [c]⟩

/-- The errno for a path that does not exist. -/
def FS.missing (fs : FS) (p : Path) : Errno :=
  if p.inits.any (fun a => fs.kind a == some false) then .ENOTDIR else .ENOENT

/-- `os.Lstat`. -/
def Lstat (fs : FS) (p : Path) : FS × (Option FileInfo × Option Error) :=
  match fs.kind p with
  | some d => (fs.log (.lstat p), (some ⟨d⟩, none))
  | none => (fs.log (.lstat p), (none, some (.errno (fs.missing p))))

/-- Byte-wise order on names, as `sort.Strings` uses it. -/
def charsLE : List Char → List Char → Bool
  | [], _ => true
  | _ :: _, [] => false
  | a :: as, b :: bs =>
    if a.toNat < b.toNat then true
    else if b.toNat < a.toNat then false
    else charsLE as bs

/-- Order in which the names of a directory are returned. -/
def nameLE (a b : String) : Prop := charsLE a.data b.data = true

instance : DecidableRel nameLE := fun a b => by
  unfold nameLE; infer_instance

/-- The sorted names of a directory, as both `ioutil.ReadDir` and the
`readDirNames` helper of `filepath` return them. -/
def readDirNames (fs : FS) (p : Path) : FS × (List String × Option Error) :=
  match fs.kind p with
  | some true => (fs.log (.readdir p), ((fs.names p).insertionSort nameLE, none))
  | some false => (fs.log (.readdir p), ([], some (.errno .ENOTDIR)))
  | none => (fs.log (.readdir p), ([], some (.errno (fs.missing p))))

/-- `ioutil.ReadDir`; the entries are represented by their names. -/
def ReadDir (fs : FS) (p : Path) : FS × (List String × Option Error) :=
  readDirNames fs p

/-- `os.Remove`: removes a non-directory or an empty directory. -/
def Remove (fs : FS) (p : Path) : FS × Option Error :=
  match fs.kind p with
  | none => (fs.log (.remove p), some (.errno (fs.missing p)))
  | some false => (⟨fs.entries.filter (fun e => decide (e.1 ≠ p)), fs.calls ++ [.remove p]⟩, none)
  | some true =>
    if p = [] then
      (fs.log (.remove p), some (.errno .EBUSY))
    else if fs.names p ≠ [] then
      (fs.log (.remove p), some (.errno .ENOTEMPTY))
    else
      (⟨fs.entries.filter (fun e => decide (e.1 ≠ p)), fs.calls ++ [.remove p]⟩, none)

/-! ## `path/filepath` -/

/-- Split at `/`. -/
def splitSlash : List Char → List String
  | [] => [""]
  | c :: cs =>
    match splitSlash cs with
    | [] => [String.mk [c]]
    | s :: ss => if c = '/' then "" :: s :: ss else String.mk (c :: s.data) :: ss

/-- `filepath.Clean` on the segments of a rooted path: empty and `.` segments
are dropped, `..` removes the segment before it and is dropped at `/`. -/
def cleanSegments : List String → Path → Path
  | [], acc => acc
  | s :: ss, acc =>
    if s = "" ∨ s = "." then cleanSegments ss acc
    else if s = ".." then cleanSegments ss acc.dropLast
    else cleanSegments ss (acc ++ [s])

/-- `filepath.Join(dir, elem)` for an absolute, clean `dir`. -/
def Join (dir : Path) (elem : String) : Path :=
  cleanSegments (splitSlash elem.data) dir

/-- `filepath.WalkFunc`, acting on the file system. -/
abbrev WalkFunc := Path → Option FileInfo → Option Error → FS → FS × Option Error

/-- The `for _, name := range names` loop of `filepath.walk`; `descend` is the
recursive call. `none` means the fuel ran out. -/
def walkNames (descend : Path → FileInfo → FS → Option (FS × Option Error))
    (walkFn : WalkFunc) (path : Path) : List String → FS → Option (FS × Option Error)
  | [], fs => some (fs, none)
  | name :: rest, fs =>
    let filename := path ++ [name]
    -- Lstat yields either an info or an error
    match Lstat fs filename with
    | (fs1, (some fileInfo, none)) =>
      match descend filename fileInfo fs1 with
      | none => none
      | some (fs2, err) =>
        if err ≠ none ∧ (!fileInfo.IsDir ∨ err ≠ some .SkipDir) then
          some (fs2, err)
        else
          walkNames descend walkFn path rest fs2
    | (fs1, (fileInfo, err)) =>
      match walkFn filename fileInfo err fs1 with
      | (fs2, err) =>
        if err ≠ none ∧ err ≠ some .SkipDir then
          some (fs2, err)
        else
          walkNames descend walkFn path rest fs2

/-- `filepath.walk`. -/
def walk (walkFn : WalkFunc) : Nat → Path → FileInfo → FS → Option (FS × Option Error)
  | 0, _, _, _ => none
  | fuel + 1, path, info, fs =>
    if !info.IsDir then
      some (walkFn path (some info) none fs)
    else
      match readDirNames fs path with
      | (fs1, (names, err)) =>
        match walkFn path (some info) err fs1 with
        | (fs2, err1) =>
          if err ≠ none ∨ err1 ≠ none then
            some (fs2, err1)
          else
            walkNames (walk walkFn fuel) walkFn path names fs2

/-- `filepath.Walk`. -/
def Walk (fuel : Nat) (root : Path) (walkFn : WalkFunc) (fs : FS) : Option (FS × Option Error) :=
  let r :=
    match Lstat fs root with
    | (fs1, (some info, none)) => walk walkFn fuel root info fs1
    | (fs1, (info, err)) => some (walkFn root info err fs1)
  match r with
  | none => none
  | some (fs2, err) => if err = some .SkipDir then some (fs2, none) else some (fs2, err)

/-! ## Cache cleanup -/

/-- Declarations of the repository that are not part of this file, taken as
parameters: `constants.ImageCacheDir` (an absolute, clean path) and
`localpath.SanitizeCacheDir`. -/
structure CacheLayout where
  ImageCacheDir : Path
  SanitizeCacheDir : Path → Path

/-- Modelled from the spec: `localpath.SanitizeCacheDir` is missing from the
sources; the specification says of it that sanitizing guards against path
traversal, "the resolved path must remain within the cache root". -/
def CacheLayout.Confined (L : CacheLayout) : Prop :=
  ∀ p : Path, L.ImageCacheDir <+: L.SanitizeCacheDir p

/-- The callback `cleanImageCacheDir` hands to `filepath.Walk`, lines 92-113.
`info` is nil only together with a non-nil `err`. -/
def cleanWalkFn : WalkFunc := fun path info err fs =>
  if err ≠ none then
    (fs, none)
  else
    match info with
    | none => (fs, none)
    | some info =>
      if !info.IsDir then
        (fs, none)
      else
        match ReadDir fs path with
        | (fs1, (entries, err)) =>
          if err ≠ none then
            (fs1, err)
          else if entries.length = 0 then
            match Remove fs1 path with
            | (fs2, err) => if err ≠ none then (fs2, err) else (fs2, none)
          else
            (fs1, none)

/-- One more than the length of the longest existing path: fuel that lets
`filepath.walk` reach every entry. -/
def FS.depth (fs : FS) : Nat :=
  (fs.entries.map (fun e => e.1.length)).foldr max 0 + 1

/-- `cleanImageCacheDir`, lines 91-115. -/
def cleanImageCacheDir (L : CacheLayout) (fs : FS) : Option (FS × Option Error) :=
  Walk fs.depth L.ImageCacheDir cleanWalkFn fs

/-- The path `DeleteFromImageCacheDir` removes for an identifier, lines 81-82. -/
def cachePath (L : CacheLayout) (image : String) : Path :=
  L.SanitizeCacheDir (Join L.ImageCacheDir image)

/-- The `for _, image := range images` loop of `DeleteFromImageCacheDir`. -/
def deleteImages (L : CacheLayout) : List String → FS → FS × Option Error
  | [], fs => (fs, none)
  | image :: rest, fs =>
    match Remove fs (cachePath L image) with
    | (fs1, some err) => (fs1, some err)
    | (fs1, none) => deleteImages L rest fs1

/-- `DeleteFromImageCacheDir`, lines 79-89. -/
def DeleteFromImageCacheDir (L : CacheLayout) (images : List String) (fs : FS) :
    Option (FS × Option Error) :=
  match deleteImages L images fs with
  | (fs1, some err) => some (fs1, some err)
  | (fs1, none) => cleanImageCacheDir L fs1

/-! ## Example states -/

/-- A cache root `/cache` and a sanitizer that keeps confined paths and sends
every other path to the root. -/
def exampleLayout : CacheLayout :=
  ⟨["cache"], fun p => if ["cache"] <+: p then p else ["cache"]⟩

/-- The state `/cache/a/sha256:1`, `/cache/a/sha256:2`, `/cache/b/sha256:3`,
`/etc/passwd`. -/
def exampleFS : FS :=
  ⟨[([], true), (["cache"], true), (["cache", "a"], true), (["cache", "a", "sha256:1"], false),
    (["cache", "a", "sha256:2"], false), (["cache", "b"], true),
    (["cache", "b", "sha256:3"], false), (["etc"], true), (["etc", "passwd"], false)], []⟩

/-- An empty cache root `/cache`. -/
def emptyRootFS : FS :=
  ⟨[([], true), (["cache"], true)], []⟩

/-- The cache root holds `a/sha256:1` and the empty directory `x/`. -/
def sweepableFS : FS :=
  ⟨[([], true), (["cache"], true), (["cache", "a"], true), (["cache", "a", "sha256:1"], false),
    (["cache", "x"], true)], []⟩

/-- The cache root holds `a/`, which holds the empty directory `b/`. -/
def nestedFS : FS :=
  ⟨[([], true), (["cache"], true), (["cache", "a"], true), (["cache", "a", "b"], true)], []⟩

/-- A registry whose three lookups end with the given errors; the daemon,
keychain and anonymous lookups yield images with distinguishable digests, the
anonymous one failing to give its configuration digest. -/
def exampleRegistry (parse daemon keychain anonymous : Option Error) : Registry :=
  ⟨fun n => (⟨n⟩, parse),
   fun _ => (⟨(⟨"sha256", "d0"⟩, none)⟩, daemon),
   fun _ => (⟨(⟨"sha256", "c1"⟩, none)⟩, keychain),
   fun _ => (⟨(⟨"sha256", "a2"⟩, some (.other "config"))⟩, anonymous)⟩

/-- A docker client that gives the same response to every inspect call. -/
def exampleClient (resp : InspectResponse) : String → ImageInspect × Option Error :=
  fun _ => resp.toGo

/-! ## Specification predicates -/

/-- An empty directory is at `q`. -/
def FS.emptyDir (fs : FS) (q : Path) : Prop :=
  fs.kind q = some true ∧ fs.names q = []

instance (fs : FS) (q : Path) : Decidable (fs.emptyDir q) := by
  unfold FS.emptyDir; infer_instance

/-- The state `fs2` arises from `fs` by removing only directories at or below
`p` that are empty in `fs`; everything else is as in `fs`. -/
def Shrink (p : Path) (fs fs2 : FS) : Prop :=
  ∀ q, fs2.kind q = fs.kind q ∨
    (fs2.kind q = none ∧ fs.kind q = some true ∧ p <+: q ∧ ∀ n, fs.kind (q ++ [n]) = none)

/-- As `Shrink`, for the directories at or below the entries `names` of `p`. -/
def ShrinkIn (p : Path) (names : List String) (fs fs2 : FS) : Prop :=
  ∀ q, fs2.kind q = fs.kind q ∨
    (fs2.kind q = none ∧ fs.kind q = some true ∧ (∃ n ∈ names, (p ++ [n]) <+: q) ∧
      ∀ n, fs.kind (q ++ [n]) = none)

/-! ## Paths -/

theorem childName_eq_some (p q : Path) (n : String) : childName p q = some n ↔ q = p ++ [n] := by
  unfold childName
  constructor
  · intro h
    split_ifs at h with hd
    have := List.dropLast_append_getLast? n (by simpa using h)
    rw [hd] at this
    exact this.symm
  · rintro rfl
    simp

theorem under_child_unique {p q : Path} {n m : String} (hn : (p ++ [n]) <+: q)
    (hm : (p ++ [m]) <+: q) : n = m := by
  obtain ⟨t, rfl⟩ := hn
  obtain ⟨u, hu⟩ := hm
  simp only [List.append_assoc, List.singleton_append] at hu
  have := List.append_cancel_left hu
  simp at this
  exact this.1.symm

theorem under_cases {p q : Path} (h : p <+: q) : q = p ∨ ∃ n, (p ++ [n]) <+: q := by
  obtain ⟨t, rfl⟩ := h
  cases t with
  | nil => left; simp
  | cons a t => right; exact ⟨a, t, by simp⟩

theorem under_of_child {p q : Path} {n : String} (h : (p ++ [n]) <+: q) : p <+: q := by
  obtain ⟨t, rfl⟩ := h
  exact ⟨n :: t, by simp⟩

theorem child_ne_self (p : Path) (n : String) : p ++ [n] ≠ p := by
  intro h
  have := congrArg List.length h
  simp at this

theorem not_child_under_self (p : Path) (n : String) : ¬ (p ++ [n]) <+: p := by
  rintro ⟨t, ht⟩
  have := congrArg List.length ht
  simp at this

/-! ## The file-system map -/

@[simp] theorem kind_log (fs : FS) (c : Syscall) (p : Path) : (fs.log c).kind p = fs.kind p := rfl

@[simp] theorem entries_log (fs : FS) (c : Syscall) : (fs.log c).entries = fs.entries := rfl

theorem kind_mk (es : List (Path × Bool)) (c : List Syscall) (p : Path) :
    (FS.mk es c).kind p = (FS.mk es []).kind p := rfl

theorem kind_of_entries {fs fs2 : FS} (h : fs2.entries = fs.entries) (p : Path) :
    fs2.kind p = fs.kind p := by
  simp [FS.kind, h]

theorem kind_eq_none_iff (fs : FS) (p : Path) : fs.kind p = none ↔ ∀ e ∈ fs.entries, e.1 ≠ p := by
  simp [FS.kind, List.find?_eq_none]

theorem kind_ne_none_iff (fs : FS) (p : Path) : fs.kind p ≠ none ↔ ∃ e ∈ fs.entries, e.1 = p := by
  rw [Ne, kind_eq_none_iff]
  push_neg
  exact Iff.rfl

theorem find_filter_ne (es : List (Path × Bool)) (p q : Path) :
    (es.filter (fun e => decide (e.1 ≠ p))).find? (fun e => decide (e.1 = q)) =
      if q = p then none else es.find? (fun e => decide (e.1 = q)) := by
  induction es with
  | nil => simp
  | cons e es ih =>
    by_cases he : e.1 = p
    · have h1 : (decide (e.1 ≠ p)) = false := by simp [he]
      rw [List.filter_cons_of_neg (by simp [he]), ih]
      by_cases hq : q = p
      · simp [hq]
      · have : ¬ e.1 = q := fun h => hq (h.symm.trans he)
        simp [hq, List.find?_cons, this]
    · rw [List.filter_cons_of_pos (by simp [he])]
      by_cases heq : e.1 = q
      · have hq : ¬ q = p := fun h => he (heq.trans h)
        simp [List.find?_cons, heq, hq]
      · rw [List.find?_cons_of_neg _ (by simp [heq]), List.find?_cons_of_neg _ (by simp [heq])]
        exact ih

theorem kind_filter (es : List (Path × Bool)) (c : List Syscall) (p q : Path) :
    (FS.mk (es.filter (fun e => decide (e.1 ≠ p))) c).kind q =
      if q = p then none else (FS.mk es c).kind q := by
  unfold FS.kind
  rw [find_filter_ne]
  split_ifs <;> rfl

theorem mem_names (fs : FS) (p : Path) (n : String) :
    n ∈ fs.names p ↔ fs.kind (p ++ [n]) ≠ none := by
  rw [kind_ne_none_iff]
  simp only [FS.names, List.mem_dedup, List.mem_filterMap, childName_eq_some]

theorem names_eq_nil_iff (fs : FS) (p : Path) :
    fs.names p = [] ↔ ∀ n, fs.kind (p ++ [n]) = none := by
  rw [List.eq_nil_iff_forall_not_mem]
  simp only [mem_names, ne_eq, not_not]

theorem names_ne_nil_iff (fs : FS) (p : Path) :
    fs.names p ≠ [] ↔ ∃ n, fs.kind (p ++ [n]) ≠ none := by
  rw [Ne, names_eq_nil_iff]
  push_neg
  rfl

theorem mem_sorted_names (fs : FS) (p : Path) (n : String) :
    n ∈ (fs.names p).insertionSort nameLE ↔ fs.kind (p ++ [n]) ≠ none := by
  rw [(List.perm_insertionSort nameLE (fs.names p)).mem_iff, mem_names]

theorem nodup_sorted_names (fs : FS) (p : Path) : ((fs.names p).insertionSort nameLE).Nodup := by
  rw [(List.perm_insertionSort nameLE (fs.names p)).nodup_iff]
  exact List.nodup_dedup _

theorem sorted_names_eq_nil_iff (fs : FS) (p : Path) :
    (fs.names p).insertionSort nameLE = [] ↔ fs.names p = [] := by
  constructor
  · intro h
    have := (List.perm_insertionSort nameLE (fs.names p)).length_eq
    rw [h] at this
    exact List.length_eq_zero.mp this.symm
  · intro h
    rw [h]
    rfl


/-! ## System calls -/

theorem Lstat_some {fs : FS} {p : Path} {d : Bool} (h : fs.kind p = some d) :
    Lstat fs p = (fs.log (.lstat p), (some ⟨d⟩, none)) := by
  simp [Lstat, h]

theorem Lstat_none {fs : FS} {p : Path} (h : fs.kind p = none) :
    Lstat fs p = (fs.log (.lstat p), (none, some (.errno (fs.missing p)))) := by
  simp [Lstat, h]

theorem readDirNames_dir {fs : FS} {p : Path} (h : fs.kind p = some true) :
    readDirNames fs p = (fs.log (.readdir p), ((fs.names p).insertionSort nameLE, none)) := by
  simp [readDirNames, h]

theorem readDirNames_not_dir {fs : FS} {p : Path} (h : fs.kind p ≠ some true) :
    ∃ e, readDirNames fs p = (fs.log (.readdir p), ([], some e)) := by
  unfold readDirNames
  cases hk : fs.kind p with
  | none => exact ⟨_, rfl⟩
  | some d =>
    cases d with
    | false => exact ⟨_, rfl⟩
    | true => exact absurd hk h

theorem Remove_missing {fs : FS} {p : Path} (h : fs.kind p = none) :
    Remove fs p = (fs.log (.remove p), some (.errno (fs.missing p))) := by
  simp [Remove, h]

theorem Remove_file {fs : FS} {p : Path} (h : fs.kind p = some false) :
    Remove fs p =
      (⟨fs.entries.filter (fun e => decide (e.1 ≠ p)), fs.calls ++ [.remove p]⟩, none) := by
  simp [Remove, h]

theorem Remove_empty_dir {fs : FS} {p : Path} (h : fs.kind p = some true) (hp : p ≠ [])
    (hn : fs.names p = []) :
    Remove fs p =
      (⟨fs.entries.filter (fun e => decide (e.1 ≠ p)), fs.calls ++ [.remove p]⟩, none) := by
  simp [Remove, h, hp, hn]

theorem Remove_nonempty_dir {fs : FS} {p : Path} (h : fs.kind p = some true) (hp : p ≠ [])
    (hn : fs.names p ≠ []) :
    Remove fs p = (fs.log (.remove p), some (.errno .ENOTEMPTY)) := by
  simp [Remove, h, hp, hn]

theorem Remove_slash {fs : FS} (h : fs.kind [] = some true) :
    Remove fs [] = (fs.log (.remove []), some (.errno .EBUSY)) := by
  simp [Remove, h]

/-- A removal either fails and changes nothing but the log, or succeeds and
deletes exactly the entry at its path, which was a non-directory or an empty
directory other than `/`. -/
theorem Remove_cases (fs : FS) (p : Path) :
    (∃ e, Remove fs p = (fs.log (.remove p), some e)) ∨
    (Remove fs p =
        (⟨fs.entries.filter (fun e => decide (e.1 ≠ p)), fs.calls ++ [.remove p]⟩, none) ∧
      (fs.kind p = some false ∨ (fs.kind p = some true ∧ p ≠ [] ∧ fs.names p = []))) := by
  cases hk : fs.kind p with
  | none => exact Or.inl ⟨_, Remove_missing hk⟩
  | some d =>
    cases d with
    | false => exact Or.inr ⟨Remove_file hk, Or.inl rfl⟩
    | true =>
      by_cases hp : p = []
      · subst hp
        exact Or.inl ⟨_, Remove_slash hk⟩
      · by_cases hn : fs.names p = []
        · exact Or.inr ⟨Remove_empty_dir hk hp hn, Or.inr ⟨rfl, hp, hn⟩⟩
        · exact Or.inl ⟨_, Remove_nonempty_dir hk hp hn⟩

theorem kind_after_remove (fs : FS) (p q : Path) (c : List Syscall) :
    (FS.mk (fs.entries.filter (fun e => decide (e.1 ≠ p))) c).kind q =
      if q = p then none else fs.kind q := by
  rw [kind_filter]
  rfl

/-! ## The callback of the sweep -/

theorem cleanWalkFn_err (p : Path) (info : Option FileInfo) (e : Error) (fs : FS) :
    cleanWalkFn p info (some e) fs = (fs, none) := by
  simp [cleanWalkFn]

theorem cleanWalkFn_file (p : Path) (fs : FS) :
    cleanWalkFn p (some ⟨false⟩) none fs = (fs, none) := by
  simp [cleanWalkFn]

theorem cleanWalkFn_stale {p : Path} {fs : FS} (h : fs.kind p ≠ some true) :
    ∃ e, cleanWalkFn p (some ⟨true⟩) none fs = (fs.log (.readdir p), some e) := by
  obtain ⟨e, he⟩ := readDirNames_not_dir h
  exact ⟨e, by simp [cleanWalkFn, ReadDir, he]⟩

theorem cleanWalkFn_nonempty {p : Path} {fs : FS} (h : fs.kind p = some true)
    (hn : fs.names p ≠ []) :
    cleanWalkFn p (some ⟨true⟩) none fs = (fs.log (.readdir p), none) := by
  have : (fs.names p).insertionSort nameLE ≠ [] := fun h0 => hn ((sorted_names_eq_nil_iff fs p).mp h0)
  simp [cleanWalkFn, ReadDir, readDirNames_dir h, this, hn]

theorem cleanWalkFn_empty {p : Path} {fs : FS} (h : fs.kind p = some true)
    (hn : fs.names p = []) :
    cleanWalkFn p (some ⟨true⟩) none fs = Remove (fs.log (.readdir p)) p := by
  have h0 : (fs.names p).insertionSort nameLE = [] := (sorted_names_eq_nil_iff fs p).mpr hn
  simp only [cleanWalkFn, ReadDir, readDirNames_dir h, h0]
  cases hr : (Remove (fs.log (.readdir p)) p).2 with
  | none =>
    have : Remove (fs.log (.readdir p)) p = ((Remove (fs.log (.readdir p)) p).1, none) := by
      rw [← hr]
    rw [this]
    simp
  | some e =>
    have : Remove (fs.log (.readdir p)) p = ((Remove (fs.log (.readdir p)) p).1, some e) := by
      rw [← hr]
    rw [this]
    simp

/-! ## Unfolding `filepath.walk` -/

theorem walkNames_nil (d : Path → FileInfo → FS → Option (FS × Option Error)) (w : WalkFunc)
    (p : Path) (fs : FS) : walkNames d w p [] fs = some (fs, none) := by
  simp [walkNames]

theorem walkNames_cons_some {d : Path → FileInfo → FS → Option (FS × Option Error)}
    {w : WalkFunc} {p : Path} {n : String} {rest : List String} {fs : FS} {k : Bool}
    (h : fs.kind (p ++ [n]) = some k) :
    walkNames d w p (n :: rest) fs =
      match d (p ++ [n]) ⟨k⟩ (fs.log (.lstat (p ++ [n]))) with
      | none => none
      | some r =>
        if r.2 ≠ none ∧ (k = false ∨ r.2 ≠ some .SkipDir) then some r
        else walkNames d w p rest r.1 := by
  simp only [walkNames, Lstat_some h]
  cases d (p ++ [n]) ⟨k⟩ (fs.log (.lstat (p ++ [n]))) with
  | none => rfl
  | some r =>
    obtain ⟨s, e⟩ := r
    cases k <;> simp

theorem walkNames_cons_none {d : Path → FileInfo → FS → Option (FS × Option Error)}
    {p : Path} {n : String} {rest : List String} {fs : FS}
    (h : fs.kind (p ++ [n]) = none) :
    walkNames d cleanWalkFn p (n :: rest) fs =
      walkNames d cleanWalkFn p rest (fs.log (.lstat (p ++ [n]))) := by
  simp [walkNames, Lstat_none h, cleanWalkFn_err]

theorem walk_zero (w : WalkFunc) (p : Path) (info : FileInfo) (fs : FS) :
    walk w 0 p info fs = none := by
  simp [walk]

theorem walk_file (f : Nat) (p : Path) (fs : FS) :
    walk cleanWalkFn (f + 1) p ⟨false⟩ fs = some (fs, none) := by
  simp [walk, cleanWalkFn_file]

theorem walk_dir_stale (f : Nat) {p : Path} {fs : FS} (h : fs.kind p ≠ some true) :
    walk cleanWalkFn (f + 1) p ⟨true⟩ fs = some (fs.log (.readdir p), none) := by
  obtain ⟨e, he⟩ := readDirNames_not_dir h
  simp [walk, he, cleanWalkFn_err]

theorem walk_dir_nonempty (f : Nat) {p : Path} {fs : FS} (h : fs.kind p = some true)
    (hn : fs.names p ≠ []) :
    walk cleanWalkFn (f + 1) p ⟨true⟩ fs =
      walkNames (walk cleanWalkFn f) cleanWalkFn p ((fs.names p).insertionSort nameLE)
        ((fs.log (.readdir p)).log (.readdir p)) := by
  have h1 : (fs.log (.readdir p)).kind p = some true := h
  have h2 : (fs.log (.readdir p)).names p ≠ [] := hn
  simp [walk, readDirNames_dir h, cleanWalkFn_nonempty h1 h2]

theorem walk_dir_empty (f : Nat) {p : Path} {fs : FS} (h : fs.kind p = some true)
    (hn : fs.names p = []) :
    walk cleanWalkFn (f + 1) p ⟨true⟩ fs =
      some (Remove ((fs.log (.readdir p)).log (.readdir p)) p) := by
  have h1 : (fs.log (.readdir p)).kind p = some true := h
  have h2 : (fs.log (.readdir p)).names p = [] := hn
  have h0 : (fs.names p).insertionSort nameLE = [] := (sorted_names_eq_nil_iff fs p).mpr hn
  simp only [walk, readDirNames_dir h, cleanWalkFn_empty h1 h2, h0]
  cases hr : (Remove ((fs.log (.readdir p)).log (.readdir p)) p).2 with
  | none =>
    have : Remove ((fs.log (.readdir p)).log (.readdir p)) p =
        ((Remove ((fs.log (.readdir p)).log (.readdir p)) p).1, none) := by rw [← hr]
    rw [this]
    simp [walkNames]
  | some e =>
    have : Remove ((fs.log (.readdir p)).log (.readdir p)) p =
        ((Remove ((fs.log (.readdir p)).log (.readdir p)) p).1, some e) := by rw [← hr]
    rw [this]
    simp

/-! ## The sweep removes only empty directories -/

theorem shrink_of_entries {p : Path} {fs fs2 : FS} (h : fs2.entries = fs.entries) :
    Shrink p fs fs2 :=
  fun q => Or.inl (kind_of_entries h q)

theorem shrinkIn_of_entries {p : Path} {L : List String} {fs fs2 : FS}
    (h : fs2.entries = fs.entries) : ShrinkIn p L fs fs2 :=
  fun q => Or.inl (kind_of_entries h q)

theorem shrink_log {p : Path} {fs fs2 : FS} {c : Syscall} (h : Shrink p (fs.log c) fs2) :
    Shrink p fs fs2 := h

theorem shrinkIn_log {p : Path} {L : List String} {fs fs2 : FS} {c : Syscall}
    (h : ShrinkIn p L (fs.log c) fs2) : ShrinkIn p L fs fs2 := h

theorem shrink_of_shrinkIn {p : Path} {L : List String} {fs fs2 : FS}
    (h : ShrinkIn p L fs fs2) : Shrink p fs fs2 := by
  intro q
  rcases h q with h1 | ⟨h1, h2, ⟨n, _, hn⟩, h3⟩
  · exact Or.inl h1
  · exact Or.inr ⟨h1, h2, under_of_child hn, h3⟩

theorem Remove_dir_shrink {fs : FS} {p : Path} (h : fs.kind p = some true) :
    Shrink p fs (Remove fs p).1 := by
  rcases Remove_cases fs p with ⟨e, he⟩ | ⟨he, hk⟩
  · rw [he]
    exact shrink_of_entries rfl
  · rw [he]
    intro q
    rw [kind_after_remove]
    by_cases hq : q = p
    · subst hq
      rcases hk with hk | ⟨hk, _, hn⟩
      · rw [h] at hk
        cases hk
      · right
        exact ⟨by simp, hk, List.prefix_refl _, (names_eq_nil_iff fs q).mp hn⟩
    · left
      simp [hq]

theorem cleanWalkFn_shrink (p : Path) (info : Option FileInfo) (err : Option Error) (fs : FS) :
    Shrink p fs (cleanWalkFn p info err fs).1 := by
  cases err with
  | some e =>
    rw [cleanWalkFn_err]
    exact shrink_of_entries rfl
  | none =>
    cases info with
    | none =>
      simp only [cleanWalkFn]
      exact shrink_of_entries rfl
    | some i =>
      obtain ⟨d⟩ := i
      cases d with
      | false =>
        rw [cleanWalkFn_file]
        exact shrink_of_entries rfl
      | true =>
        by_cases hk : fs.kind p = some true
        · by_cases hn : fs.names p = []
          · rw [cleanWalkFn_empty hk hn]
            exact @Remove_dir_shrink (fs.log (.readdir p)) p hk
          · rw [cleanWalkFn_nonempty hk hn]
            exact shrink_of_entries rfl
        · obtain ⟨e, he⟩ := cleanWalkFn_stale hk
          rw [he]
          exact shrink_of_entries rfl

theorem shrinkIn_cons {p : Path} {n : String} {rest : List String} {s s2 s3 : FS}
    (hn : n ∉ rest) (h1 : Shrink (p ++ [n]) s s2) (h2 : ShrinkIn p rest s2 s3) :
    ShrinkIn p (n :: rest) s s3 := by
  intro q
  rcases h2 q with e2 | ⟨e2, d2, ⟨m, hm, hmq⟩, c2⟩
  · rcases h1 q with e1 | ⟨e1, d1, u1, c1⟩
    · exact Or.inl (e2.trans e1)
    · exact Or.inr ⟨e2.trans e1, d1, ⟨n, List.mem_cons_self _ _, u1⟩, c1⟩
  · rcases h1 q with e1 | ⟨e1, _, _, _⟩
    · refine Or.inr ⟨e2, e1 ▸ d2, ⟨m, List.mem_cons_of_mem _ hm, hmq⟩, fun x => ?_⟩
      rcases h1 (q ++ [x]) with ex | ⟨_, _, ux, _⟩
      · exact ex ▸ c2 x
      · exfalso
        have hmx : (p ++ [m]) <+: (q ++ [x]) := hmq.trans (List.prefix_append _ _)
        exact hn (under_child_unique ux hmx ▸ hm)
    · rw [e1] at d2
      cases d2

theorem shrinkIn_skip {p : Path} {n : String} {rest : List String} {s s3 : FS}
    (h2 : ShrinkIn p rest s s3) : ShrinkIn p (n :: rest) s s3 := by
  intro q
  rcases h2 q with e2 | ⟨e2, d2, ⟨m, hm, hmq⟩, c2⟩
  · exact Or.inl e2
  · exact Or.inr ⟨e2, d2, ⟨m, List.mem_cons_of_mem _ hm, hmq⟩, c2⟩

theorem walkNames_shrinkIn (d : Path → FileInfo → FS → Option (FS × Option Error)) (p : Path)
    (hd : ∀ n info s r, d (p ++ [n]) info s = some r → Shrink (p ++ [n]) s r.1) :
    ∀ (L : List String), L.Nodup → ∀ s r, walkNames d cleanWalkFn p L s = some r →
      ShrinkIn p L s r.1 := by
  intro L
  induction L with
  | nil =>
    intro _ s r h
    rw [walkNames_nil] at h
    cases h
    exact shrinkIn_of_entries rfl
  | cons n rest ih =>
    intro hnd s r h
    have hn : n ∉ rest := (List.nodup_cons.mp hnd).1
    have hrest : rest.Nodup := (List.nodup_cons.mp hnd).2
    cases hk : s.kind (p ++ [n]) with
    | none =>
      rw [walkNames_cons_none hk] at h
      exact shrinkIn_skip (shrinkIn_log (ih hrest (s.log (.lstat (p ++ [n]))) r h))
    | some k =>
      rw [walkNames_cons_some hk] at h
      cases hdesc : d (p ++ [n]) ⟨k⟩ (s.log (.lstat (p ++ [n]))) with
      | none => simp [hdesc] at h
      | some r2 =>
        have h1 : Shrink (p ++ [n]) s r2.1 := shrink_log (hd n ⟨k⟩ _ r2 hdesc)
        simp only [hdesc] at h
        split_ifs at h with hc
        · cases h
          exact shrinkIn_cons hn h1 (shrinkIn_of_entries rfl)
        · exact shrinkIn_cons hn h1 (ih hrest _ r h)

theorem walk_shrink : ∀ (f : Nat) (p : Path) (info : FileInfo) (fs : FS) (r : FS × Option Error),
    walk cleanWalkFn f p info fs = some r → Shrink p fs r.1 := by
  intro f
  induction f with
  | zero =>
    intro p info fs r h
    simp [walk_zero] at h
  | succ f ih =>
    intro p info fs r h
    obtain ⟨d⟩ := info
    cases d with
    | false =>
      rw [walk_file] at h
      cases h
      exact shrink_of_entries rfl
    | true =>
      by_cases hk : fs.kind p = some true
      · by_cases hn : fs.names p = []
        · rw [walk_dir_empty f hk hn] at h
          cases h
          exact @Remove_dir_shrink ((fs.log (.readdir p)).log (.readdir p)) p hk
        · rw [walk_dir_nonempty f hk hn] at h
          exact shrink_of_shrinkIn (shrinkIn_log (shrinkIn_log
            (walkNames_shrinkIn (walk cleanWalkFn f) p (fun n info s r => ih (p ++ [n]) info s r)
              _ (nodup_sorted_names fs p) ((fs.log (.readdir p)).log (.readdir p)) r h)))
      · rw [walk_dir_stale f hk] at h
        cases h
        exact shrink_of_entries rfl

/-! ## The fuel suffices -/

theorem kind_of_shrink_ne_none {p : Path} {fs fs2 : FS} (h : Shrink p fs fs2) {q : Path}
    (hq : fs2.kind q ≠ none) : fs.kind q = fs2.kind q := by
  rcases h q with e | ⟨e, _⟩
  · exact e.symm
  · exact absurd e hq

theorem walkNames_total (d : Path → FileInfo → FS → Option (FS × Option Error)) (p : Path)
    (B : Nat)
    (hd : ∀ n info s, (∀ q, s.kind q ≠ none → q.length < B) → s.kind (p ++ [n]) ≠ none →
      ∃ r, d (p ++ [n]) info s = some r)
    (hs : ∀ n info s r, d (p ++ [n]) info s = some r → Shrink (p ++ [n]) s r.1) :
    ∀ (L : List String) (s : FS), (∀ q, s.kind q ≠ none → q.length < B) →
      ∃ r, walkNames d cleanWalkFn p L s = some r := by
  intro L
  induction L with
  | nil =>
    intro s _
    exact ⟨_, walkNames_nil _ _ _ _⟩
  | cons n rest ih =>
    intro s hb
    cases hk : s.kind (p ++ [n]) with
    | none =>
      rw [walkNames_cons_none hk]
      exact ih (s.log (.lstat (p ++ [n]))) hb
    | some k =>
      rw [walkNames_cons_some hk]
      obtain ⟨r2, hr2⟩ := hd n ⟨k⟩ (s.log (.lstat (p ++ [n]))) hb (by
        show s.kind (p ++ [n]) ≠ none
        rw [hk]
        exact Option.some_ne_none k)
      simp only [hr2]
      split_ifs
      · exact ⟨_, rfl⟩
      · refine ih r2.1 (fun q hq => hb q ?_)
        have hsh : Shrink (p ++ [n]) s r2.1 := shrink_log (hs n ⟨k⟩ _ r2 hr2)
        rw [kind_of_shrink_ne_none hsh hq]
        exact hq

theorem walk_total : ∀ (f : Nat) (p : Path) (info : FileInfo) (fs : FS),
    (∀ q, fs.kind q ≠ none → q.length < p.length + f) → fs.kind p ≠ none →
    ∃ r, walk cleanWalkFn f p info fs = some r := by
  intro f
  induction f with
  | zero =>
    intro p info fs hb hp
    have := hb p hp
    omega
  | succ f ih =>
    intro p info fs hb hp
    obtain ⟨d⟩ := info
    cases d with
    | false => exact ⟨_, walk_file f p fs⟩
    | true =>
      by_cases hk : fs.kind p = some true
      · by_cases hn : fs.names p = []
        · exact ⟨_, walk_dir_empty f hk hn⟩
        · rw [walk_dir_nonempty f hk hn]
          refine walkNames_total (walk cleanWalkFn f) p (p.length + 1 + f) ?_ ?_ _ _ ?_
          · intro n info s hs hn
            refine ih (p ++ [n]) info s (fun q hq => ?_) hn
            have := hs q hq
            simp only [List.length_append, List.length_singleton]
            omega
          · intro n info s r h
            exact walk_shrink f (p ++ [n]) info s r h
          · intro q hq
            have := hb q hq
            omega
      · exact ⟨_, walk_dir_stale f hk⟩

theorem length_lt_depth {fs : FS} {q : Path} (h : fs.kind q ≠ none) : q.length < fs.depth := by
  obtain ⟨e, he, rfl⟩ := (kind_ne_none_iff fs q).mp h
  unfold FS.depth
  have : ∀ (es : List (Path × Bool)), e ∈ es →
      e.1.length ≤ (es.map (fun e => e.1.length)).foldr max 0 := by
    intro es
    induction es with
    | nil => intro h; cases h
    | cons a es ih =>
      intro h
      simp only [List.map_cons, List.foldr_cons]
      rcases List.mem_cons.mp h with rfl | h
      · exact le_max_left _ _
      · exact le_trans (ih h) (le_max_right _ _)
  have := this fs.entries he
  omega

/-! ## `cleanImageCacheDir` -/

theorem cleanImageCacheDir_missing {L : CacheLayout} {fs : FS}
    (h : fs.kind L.ImageCacheDir = none) :
    cleanImageCacheDir L fs = some (fs.log (.lstat L.ImageCacheDir), none) := by
  simp [cleanImageCacheDir, Walk, Lstat_none h, cleanWalkFn_err]

theorem cleanImageCacheDir_present {L : CacheLayout} {fs : FS} {d : Bool}
    (h : fs.kind L.ImageCacheDir = some d) :
    cleanImageCacheDir L fs =
      (walk cleanWalkFn fs.depth L.ImageCacheDir ⟨d⟩ (fs.log (.lstat L.ImageCacheDir))).map
        (fun r => if r.2 = some .SkipDir then (r.1, none) else r) := by
  simp only [cleanImageCacheDir, Walk, Lstat_some h]
  cases walk cleanWalkFn fs.depth L.ImageCacheDir ⟨d⟩ (fs.log (.lstat L.ImageCacheDir)) with
  | none => rfl
  | some r =>
    obtain ⟨s, e⟩ := r
    simp only [Option.map_some']
    split_ifs <;> rfl

/-- The sweep returns: the fuel `cleanImageCacheDir` supplies is enough. -/
theorem cleanImageCacheDir_total (L : CacheLayout) (fs : FS) :
    ∃ r, cleanImageCacheDir L fs = some r := by
  cases hk : fs.kind L.ImageCacheDir with
  | none => exact ⟨_, cleanImageCacheDir_missing hk⟩
  | some d =>
    rw [cleanImageCacheDir_present hk]
    obtain ⟨r, hr⟩ := walk_total fs.depth L.ImageCacheDir ⟨d⟩ (fs.log (.lstat L.ImageCacheDir))
      (fun q hq => by
        have := @length_lt_depth fs q hq
        omega)
      (by
        show fs.kind L.ImageCacheDir ≠ none
        rw [hk]
        exact Option.some_ne_none d)
    exact ⟨_, by rw [hr]; rfl⟩

theorem cleanImageCacheDir_shrink {L : CacheLayout} {fs : FS} {r : FS × Option Error}
    (h : cleanImageCacheDir L fs = some r) : Shrink L.ImageCacheDir fs r.1 := by
  cases hk : fs.kind L.ImageCacheDir with
  | none =>
    rw [cleanImageCacheDir_missing hk] at h
    cases h
    exact shrink_of_entries rfl
  | some d =>
    rw [cleanImageCacheDir_present hk] at h
    cases hw : walk cleanWalkFn fs.depth L.ImageCacheDir ⟨d⟩ (fs.log (.lstat L.ImageCacheDir)) with
    | none => simp [hw] at h
    | some r2 =>
      have hs : Shrink L.ImageCacheDir fs r2.1 := shrink_log (walk_shrink _ _ _ _ _ hw)
      simp only [hw, Option.map_some', Option.some.injEq] at h
      split_ifs at h <;> (subst h; exact hs)

/-! ## Well-formed states -/

theorem wf_iff (fs : FS) :
    fs.WF ↔ ∀ q a, fs.kind q ≠ none → a <+: q → a ≠ q → fs.kind a = some true := by
  constructor
  · intro h q a hq ha hne
    obtain ⟨e, he, rfl⟩ := (kind_ne_none_iff fs q).mp hq
    exact h e he a ((List.mem_inits _ _).mpr ha) hne
  · intro h e he a ha hne
    exact h e.1 a ((kind_ne_none_iff fs e.1).mpr ⟨e, he, rfl⟩) ((List.mem_inits _ _).mp ha) hne

theorem wf_child_exists {fs : FS} (h : fs.WF) {p q : Path} {n : String}
    (hq : fs.kind q ≠ none) (hn : (p ++ [n]) <+: q) : fs.kind (p ++ [n]) ≠ none := by
  by_cases he : p ++ [n] = q
  · rw [he]
    exact hq
  · rw [(wf_iff fs).mp h q (p ++ [n]) hq hn he]
    exact Option.some_ne_none true

theorem wf_of_shrink {p : Path} {fs fs2 : FS} (h : fs.WF) (hs : Shrink p fs fs2) : fs2.WF := by
  rw [wf_iff] at h ⊢
  intro q a hq ha hne
  have hq1 : fs.kind q ≠ none := by
    rw [kind_of_shrink_ne_none hs hq]
    exact hq
  have hd := h q a hq1 ha hne
  rcases hs a with e | ⟨_, _, _, c⟩
  · rw [e]
    exact hd
  · exfalso
    rcases under_cases ha with rfl | ⟨n, hn⟩
    · exact hne rfl
    · exact wf_child_exists ((wf_iff fs).mpr h) hq1 hn (c n)

theorem emptyDir_iff (fs : FS) (q : Path) :
    fs.emptyDir q ↔ fs.kind q = some true ∧ ∀ n, fs.kind (q ++ [n]) = none := by
  unfold FS.emptyDir
  rw [names_eq_nil_iff]

theorem kind_none_of_shrink {p : Path} {fs fs2 : FS} (hs : Shrink p fs fs2) {q : Path}
    (h : fs.kind q = none) : fs2.kind q = none := by
  rcases hs q with e | ⟨e, _⟩
  · rw [e]
    exact h
  · exact e

/-- An empty directory stays empty, or disappears. -/
theorem emptyDir_of_shrink {p : Path} {fs fs2 : FS} (hs : Shrink p fs fs2) {q : Path}
    (h : fs.emptyDir q) : fs2.kind q = none ∨ fs2.emptyDir q := by
  rw [emptyDir_iff] at h
  rcases hs q with e | ⟨e, _⟩
  · right
    rw [emptyDir_iff]
    exact ⟨e ▸ h.1, fun n => kind_none_of_shrink hs (h.2 n)⟩
  · exact Or.inl e

/-! ## Every empty directory below a visited directory is removed -/

theorem walkNames_reach (d : Path → FileInfo → FS → Option (FS × Option Error)) (p : Path)
    (hs : ∀ n info s r, d (p ++ [n]) info s = some r → Shrink (p ++ [n]) s r.1)
    (hd : ∀ n k s r, d (p ++ [n]) ⟨k⟩ s = some r → s.WF → s.kind (p ++ [n]) = some k →
      r.2 = none ∧ ∀ q, (p ++ [n]) <+: q → s.emptyDir q → r.1.kind q = none) :
    ∀ (L : List String), L.Nodup → ∀ s r, walkNames d cleanWalkFn p L s = some r → s.WF →
      r.2 = none ∧ ∀ q n, n ∈ L → (p ++ [n]) <+: q → s.emptyDir q → r.1.kind q = none := by
  intro L
  induction L with
  | nil =>
    intro _ s r h _
    rw [walkNames_nil] at h
    cases h
    exact ⟨rfl, fun q n hn => absurd hn (List.not_mem_nil n)⟩
  | cons n rest ih =>
    intro hnd s r h hwf
    have hrest : rest.Nodup := (List.nodup_cons.mp hnd).2
    cases hk : s.kind (p ++ [n]) with
    | none =>
      rw [walkNames_cons_none hk] at h
      obtain ⟨he, hr⟩ := ih hrest (s.log (.lstat (p ++ [n]))) r h hwf
      refine ⟨he, fun q m hm hmq hq => ?_⟩
      rcases List.mem_cons.mp hm with rfl | hm
      · exfalso
        have : s.kind q ≠ none := by
          rw [hq.1]
          exact Option.some_ne_none true
        exact wf_child_exists hwf this hmq hk
      · exact hr q m hm hmq hq
    | some k =>
      rw [walkNames_cons_some hk] at h
      cases hdesc : d (p ++ [n]) ⟨k⟩ (s.log (.lstat (p ++ [n]))) with
      | none => simp [hdesc] at h
      | some r2 =>
        have h1 : Shrink (p ++ [n]) s r2.1 := shrink_log (hs n ⟨k⟩ _ r2 hdesc)
        obtain ⟨he2, hr2⟩ := hd n k (s.log (.lstat (p ++ [n]))) r2 hdesc hwf hk
        simp only [hdesc, he2, ne_eq, not_true_eq_false, false_and, if_false] at h
        have hwf2 : r2.1.WF := wf_of_shrink hwf h1
        obtain ⟨he, hr⟩ := ih hrest r2.1 r h hwf2
        have h2 : Shrink p r2.1 r.1 :=
          shrink_of_shrinkIn (walkNames_shrinkIn d p hs rest hrest r2.1 r h)
        refine ⟨he, fun q m hm hmq hq => ?_⟩
        rcases List.mem_cons.mp hm with rfl | hm
        · exact kind_none_of_shrink h2 (hr2 q hmq hq)
        · rcases emptyDir_of_shrink h1 hq with e | e
          · exact kind_none_of_shrink h2 e
          · exact hr q m hm hmq e

theorem walk_reach : ∀ (f : Nat) (p : Path) (k : Bool) (fs : FS) (r : FS × Option Error),
    walk cleanWalkFn f p ⟨k⟩ fs = some r → fs.WF → fs.kind p = some k →
    (p ≠ [] ∨ fs.names p ≠ []) →
    r.2 = none ∧ ∀ q, p <+: q → fs.emptyDir q → r.1.kind q = none := by
  intro f
  induction f with
  | zero =>
    intro p k fs r h
    simp [walk_zero] at h
  | succ f ih =>
    intro p k fs r h hwf hk hp
    have hchild : ∀ q, p <+: q → q ≠ p → fs.kind q ≠ none → fs.names p ≠ [] := by
      intro q hq hne hex
      rcases under_cases hq with rfl | ⟨n, hn⟩
      · exact absurd rfl hne
      · exact (names_ne_nil_iff fs p).mpr ⟨n, wf_child_exists hwf hex hn⟩
    cases k with
    | false =>
      rw [walk_file] at h
      cases h
      refine ⟨rfl, fun q hq he => ?_⟩
      exfalso
      have hex : fs.kind q ≠ none := by
        rw [he.1]
        exact Option.some_ne_none true
      by_cases hqp : q = p
      · have h1 := he.1
        rw [hqp, hk] at h1
        cases h1
      · have := (wf_iff fs).mp hwf q p hex hq (fun h => hqp h.symm)
        rw [hk] at this
        cases this
    | true =>
      by_cases hn : fs.names p = []
      · rw [walk_dir_empty f hk hn] at h
        cases h
        have hp0 : p ≠ [] := hp.resolve_right (fun h => h hn)
        rw [@Remove_empty_dir ((fs.log (.readdir p)).log (.readdir p)) p hk hp0 hn]
        refine ⟨rfl, fun q hq he => ?_⟩
        have hex : fs.kind q ≠ none := by
          rw [he.1]
          exact Option.some_ne_none true
        by_cases hqp : q = p
        · show (FS.mk _ _).kind q = none
          rw [kind_filter]
          simp [hqp]
        · exact absurd hn (hchild q hq hqp hex)
      · rw [walk_dir_nonempty f hk hn] at h
        obtain ⟨he, hr⟩ := walkNames_reach (walk cleanWalkFn f) p
          (fun n info s r => walk_shrink f (p ++ [n]) info s r)
          (fun n k s r hw hwf hk =>
            ih (p ++ [n]) k s r hw hwf hk (Or.inl (by simp)))
          _ (nodup_sorted_names fs p) ((fs.log (.readdir p)).log (.readdir p)) r h hwf
        refine ⟨he, fun q hq hempty => ?_⟩
        have hex : fs.kind q ≠ none := by
          rw [hempty.1]
          exact Option.some_ne_none true
        rcases under_cases hq with rfl | ⟨n, hnq⟩
        · exact absurd hempty.2 hn
        · exact hr q n ((mem_sorted_names fs p n).mpr (wf_child_exists hwf hex hnq)) hnq hempty

/-! ## A state without empty directories is left alone -/

theorem emptyDir_of_entries {fs fs2 : FS} (h : fs2.entries = fs.entries) (q : Path) :
    fs2.emptyDir q ↔ fs.emptyDir q := by
  simp [FS.emptyDir, FS.kind, FS.names, h]

theorem walkNames_noop (d : Path → FileInfo → FS → Option (FS × Option Error)) (p : Path)
    (hd : ∀ n info s r, d (p ++ [n]) info s = some r →
      (∀ q, (p ++ [n]) <+: q → ¬ s.emptyDir q) → r.1.entries = s.entries ∧ r.2 = none) :
    ∀ (L : List String) (s : FS) (r : FS × Option Error),
      walkNames d cleanWalkFn p L s = some r →
      (∀ q n, (p ++ [n]) <+: q → ¬ s.emptyDir q) → r.1.entries = s.entries ∧ r.2 = none := by
  intro L
  induction L with
  | nil =>
    intro s r h _
    rw [walkNames_nil] at h
    cases h
    exact ⟨rfl, rfl⟩
  | cons n rest ih =>
    intro s r h hc
    cases hk : s.kind (p ++ [n]) with
    | none =>
      rw [walkNames_cons_none hk] at h
      exact ih (s.log (.lstat (p ++ [n]))) r h hc
    | some k =>
      rw [walkNames_cons_some hk] at h
      cases hdesc : d (p ++ [n]) ⟨k⟩ (s.log (.lstat (p ++ [n]))) with
      | none => simp [hdesc] at h
      | some r2 =>
        obtain ⟨e2, n2⟩ := hd n ⟨k⟩ (s.log (.lstat (p ++ [n]))) r2 hdesc (fun q hq => hc q n hq)
        simp only [hdesc, n2, ne_eq, not_true_eq_false, false_and, if_false] at h
        have e2s : r2.1.entries = s.entries := e2
        obtain ⟨e3, n3⟩ := ih r2.1 r h
          (fun q m hq he => hc q m hq ((emptyDir_of_entries e2s q).mp he))
        exact ⟨e3.trans e2s, n3⟩

theorem walk_noop : ∀ (f : Nat) (p : Path) (info : FileInfo) (fs : FS) (r : FS × Option Error),
    walk cleanWalkFn f p info fs = some r → (∀ q, p <+: q → ¬ fs.emptyDir q) →
    r.1.entries = fs.entries ∧ r.2 = none := by
  intro f
  induction f with
  | zero =>
    intro p info fs r h
    simp [walk_zero] at h
  | succ f ih =>
    intro p info fs r h hc
    obtain ⟨d⟩ := info
    cases d with
    | false =>
      rw [walk_file] at h
      cases h
      exact ⟨rfl, rfl⟩
    | true =>
      by_cases hk : fs.kind p = some true
      · have hn : fs.names p ≠ [] := fun hn => hc p (List.prefix_refl p) ⟨hk, hn⟩
        rw [walk_dir_nonempty f hk hn] at h
        exact walkNames_noop (walk cleanWalkFn f) p
          (fun n info s r hw hcs => ih (p ++ [n]) info s r hw hcs)
          _ ((fs.log (.readdir p)).log (.readdir p)) r h
          (fun q n hq => hc q (under_of_child hq))
      · rw [walk_dir_stale f hk] at h
        cases h
        exact ⟨rfl, rfl⟩

theorem cleanImageCacheDir_noop {L : CacheLayout} {fs : FS} {r : FS × Option Error}
    (h : cleanImageCacheDir L fs = some r)
    (hc : ∀ q, L.ImageCacheDir <+: q → ¬ fs.emptyDir q) :
    r.1.entries = fs.entries ∧ r.2 = none := by
  cases hk : fs.kind L.ImageCacheDir with
  | none =>
    rw [cleanImageCacheDir_missing hk] at h
    cases h
    exact ⟨rfl, rfl⟩
  | some d =>
    rw [cleanImageCacheDir_present hk] at h
    cases hw : walk cleanWalkFn fs.depth L.ImageCacheDir ⟨d⟩ (fs.log (.lstat L.ImageCacheDir)) with
    | none => simp [hw] at h
    | some r2 =>
      obtain ⟨e2, n2⟩ := walk_noop _ _ _ _ _ hw hc
      simp only [hw, Option.map_some', Option.some.injEq, n2] at h
      simp at h
      subst h
      exact ⟨e2, n2⟩

theorem cleanImageCacheDir_reach {L : CacheLayout} {fs : FS} {r : FS × Option Error}
    (h : cleanImageCacheDir L fs = some r) (hwf : fs.WF)
    (hp : L.ImageCacheDir ≠ [] ∨ fs.names L.ImageCacheDir ≠ []) :
    r.2 = none ∧ ∀ q, L.ImageCacheDir <+: q → fs.emptyDir q → r.1.kind q = none := by
  cases hk : fs.kind L.ImageCacheDir with
  | none =>
    rw [cleanImageCacheDir_missing hk] at h
    cases h
    refine ⟨rfl, fun q hq he => ?_⟩
    exfalso
    have hex : fs.kind q ≠ none := by
      rw [he.1]
      exact Option.some_ne_none true
    by_cases hqp : L.ImageCacheDir = q
    · exact hex (hqp ▸ hk)
    · have := (wf_iff fs).mp hwf q _ hex hq hqp
      rw [hk] at this
      cases this
  | some d =>
    rw [cleanImageCacheDir_present hk] at h
    cases hw : walk cleanWalkFn fs.depth L.ImageCacheDir ⟨d⟩ (fs.log (.lstat L.ImageCacheDir)) with
    | none => simp [hw] at h
    | some r2 =>
      obtain ⟨n2, hr⟩ := walk_reach _ _ _ (fs.log (.lstat L.ImageCacheDir)) _ hw hwf hk hp
      simp only [hw, Option.map_some', Option.some.injEq, n2] at h
      simp at h
      subst h
      exact ⟨n2, hr⟩

/-! ## The removal loop -/

theorem deleteImages_nil (L : CacheLayout) (fs : FS) : deleteImages L [] fs = (fs, none) := by
  simp [deleteImages]

theorem deleteImages_cons_ok {L : CacheLayout} {image : String} {rest : List String}
    {fs fs1 : FS} (h : Remove fs (cachePath L image) = (fs1, none)) :
    deleteImages L (image :: rest) fs = deleteImages L rest fs1 := by
  simp [deleteImages, h]

theorem deleteImages_cons_err {L : CacheLayout} {image : String} {rest : List String}
    {fs fs1 : FS} {e : Error} (h : Remove fs (cachePath L image) = (fs1, some e)) :
    deleteImages L (image :: rest) fs = (fs1, some e) := by
  simp [deleteImages, h]

theorem deleteImages_ok (L : CacheLayout) : ∀ (images : List String) (fs fs1 : FS),
    deleteImages L images fs = (fs1, none) →
    fs1.entries = fs.entries.filter (fun en => decide (en.1 ∉ images.map (cachePath L))) ∧
    fs1.calls = fs.calls ++ images.map (fun image => Syscall.remove (cachePath L image)) := by
  intro images
  induction images with
  | nil =>
    intro fs fs1 h
    rw [deleteImages_nil] at h
    cases h
    simp
  | cons image rest ih =>
    intro fs fs1 h
    rcases Remove_cases fs (cachePath L image) with ⟨e, he⟩ | ⟨he, _⟩
    · rw [deleteImages_cons_err he] at h
      exact absurd (Prod.mk.inj h).2 (by simp)
    · rw [deleteImages_cons_ok he] at h
      obtain ⟨h1, h2⟩ := ih _ fs1 h
      refine ⟨?_, ?_⟩
      · rw [h1, List.filter_filter]
        apply List.filter_congr
        intro en _
        simp only [List.map_cons, List.mem_cons, not_or, Bool.decide_and]
        exact Bool.and_comm _ _
      · rw [h2]
        simp

theorem deleteImages_fail (L : CacheLayout) (image : String) (post : List String) (e : Error) :
    ∀ (pre : List String) (fs fs1 fs2 : FS), deleteImages L pre fs = (fs1, none) →
      Remove fs1 (cachePath L image) = (fs2, some e) →
      deleteImages L (pre ++ image :: post) fs = (fs2, some e) := by
  intro pre
  induction pre with
  | nil =>
    intro fs fs1 fs2 h hr
    rw [deleteImages_nil] at h
    cases h
    exact deleteImages_cons_err hr
  | cons x rest ih =>
    intro fs fs1 fs2 h hr
    rcases Remove_cases fs (cachePath L x) with ⟨e2, he2⟩ | ⟨he2, _⟩
    · rw [deleteImages_cons_err he2] at h
      exact absurd (Prod.mk.inj h).2 (by simp)
    · rw [deleteImages_cons_ok he2] at h
      rw [List.cons_append, deleteImages_cons_ok he2]
      exact ih _ fs1 fs2 h hr

/-- C1: `DeleteFromImageCacheDir` is fail-fast. If the removals for entries
`0..i-1` succeed, leading to state `fs1`, and the removal for entry `i` fails
with `e`, the call returns `e`; the entries then present are those of the
initial state except the first `i` removed paths, and the system calls made
are exactly the `i + 1` removals, so no later file was touched and the sweep
(which starts with an `lstat`) did not run. -/
theorem DeleteFromImageCacheDir_fail_fast (L : CacheLayout) (fs fs1 fs2 : FS)
    (images : List String) (i : Nat) (hi : i < images.length) (e : Error)
    (hpre : deleteImages L (images.take i) fs = (fs1, none))
    (hfail : Remove fs1 (cachePath L (images.get ⟨i, hi⟩)) = (fs2, some e)) :
    DeleteFromImageCacheDir L images fs = some (fs2, some e) ∧
    fs2.entries =
      fs.entries.filter (fun en => decide (en.1 ∉ (images.take i).map (cachePath L))) ∧
    fs2.calls =
      fs.calls ++ (images.take (i + 1)).map (fun image => Syscall.remove (cachePath L image)) := by
  have hsplit : images = images.take i ++ images.get ⟨i, hi⟩ :: images.drop (i + 1) := by
    rw [List.get_eq_getElem, ← List.drop_eq_getElem_cons hi, List.take_append_drop]
  have hloop := deleteImages_fail L (images.get ⟨i, hi⟩) (images.drop (i + 1)) e
    (images.take i) fs fs1 fs2 hpre hfail
  rw [← hsplit] at hloop
  obtain ⟨h1, h2⟩ := deleteImages_ok L _ fs fs1 hpre
  have hfs2 : fs2 = fs1.log (.remove (cachePath L (images.get ⟨i, hi⟩))) := by
    rcases Remove_cases fs1 (cachePath L (images.get ⟨i, hi⟩)) with ⟨e2, he2⟩ | ⟨he2, _⟩
    · rw [he2] at hfail
      exact (Prod.mk.inj hfail).1.symm
    · rw [he2] at hfail
      cases (Prod.mk.inj hfail).2
  refine ⟨?_, ?_, ?_⟩
  · simp [DeleteFromImageCacheDir, hloop]
  · rw [hfs2]
    exact h1
  · rw [hfs2]
    show fs1.calls ++ [_] = _
    rw [h2, List.append_assoc, List.take_succ, List.getElem?_eq_getElem hi]
    simp only [List.map_append, Option.toList_some, List.map_cons, List.map_nil,
      List.get_eq_getElem]

theorem Remove_kind_of_ne (fs : FS) {p q : Path} (h : q ≠ p) :
    (Remove fs p).1.kind q = fs.kind q := by
  rcases Remove_cases fs p with ⟨e, he⟩ | ⟨he, _⟩
  · rw [he]
    rfl
  · rw [he, kind_after_remove, if_neg h]

theorem Remove_mono (fs : FS) (p q : Path) :
    (Remove fs p).1.kind q = fs.kind q ∨ (Remove fs p).1.kind q = none := by
  by_cases h : q = p
  · rcases Remove_cases fs p with ⟨e, he⟩ | ⟨he, _⟩
    · rw [he]
      exact Or.inl rfl
    · rw [he, kind_after_remove, if_pos h]
      exact Or.inr rfl
  · exact Or.inl (Remove_kind_of_ne fs h)

theorem Remove_ok_gone {fs fs1 : FS} {p : Path} (h : Remove fs p = (fs1, none)) :
    fs1.kind p = none := by
  rcases Remove_cases fs p with ⟨e, he⟩ | ⟨he, _⟩
  · rw [he] at h
    exact absurd (Prod.mk.inj h).2 (by simp)
  · rw [he] at h
    rw [← (Prod.mk.inj h).1, kind_after_remove, if_pos rfl]

theorem wf_Remove {fs : FS} (hwf : fs.WF) (p : Path) : (Remove fs p).1.WF := by
  rcases Remove_cases fs p with ⟨e, he⟩ | ⟨he, hk⟩
  · rw [he]
    exact hwf
  · rw [he, wf_iff]
    intro q a hq ha hne
    rw [kind_after_remove] at hq ⊢
    have hqp : q ≠ p := fun h => hq (if_pos h)
    rw [if_neg hqp] at hq
    have hd := (wf_iff fs).mp hwf q a hq ha hne
    have hap : a ≠ p := by
      rintro rfl
      rcases hk with hk | ⟨_, _, hn⟩
      · rw [hk] at hd
        cases hd
      · rcases under_cases ha with rfl | ⟨n, hnq⟩
        · exact hne rfl
        · exact (names_eq_nil_iff fs a).mp hn n |> wf_child_exists hwf hq hnq
    rw [if_neg hap]
    exact hd

theorem deleteImages_mono (L : CacheLayout) : ∀ (images : List String) (fs : FS) (q : Path),
    (deleteImages L images fs).1.kind q = fs.kind q ∨
      (deleteImages L images fs).1.kind q = none := by
  intro images
  induction images with
  | nil =>
    intro fs q
    rw [deleteImages_nil]
    exact Or.inl rfl
  | cons image rest ih =>
    intro fs q
    cases hr : Remove fs (cachePath L image) with
    | mk fs1 err =>
      have hm := Remove_mono fs (cachePath L image) q
      rw [hr] at hm
      cases err with
      | some e =>
        rw [deleteImages_cons_err hr]
        exact hm
      | none =>
        rw [deleteImages_cons_ok hr]
        rcases ih fs1 q with h | h
        · rcases hm with hm | hm
          · exact Or.inl (h.trans hm)
          · exact Or.inr (h.trans hm)
        · exact Or.inr h

theorem deleteImages_wf (L : CacheLayout) : ∀ (images : List String) (fs : FS), fs.WF →
    (deleteImages L images fs).1.WF := by
  intro images
  induction images with
  | nil =>
    intro fs h
    rw [deleteImages_nil]
    exact h
  | cons image rest ih =>
    intro fs h
    cases hr : Remove fs (cachePath L image) with
    | mk fs1 err =>
      have hw := wf_Remove h (cachePath L image)
      rw [hr] at hw
      cases err with
      | some e =>
        rw [deleteImages_cons_err hr]
        exact hw
      | none =>
        rw [deleteImages_cons_ok hr]
        exact ih fs1 hw

theorem deleteImages_gone (L : CacheLayout) : ∀ (images : List String) (fs : FS),
    (deleteImages L images fs).2 = none → ∀ image ∈ images,
      (deleteImages L images fs).1.kind (cachePath L image) = none := by
  intro images
  induction images with
  | nil =>
    intro fs _ image h
    cases h
  | cons x rest ih =>
    intro fs hok image hmem
    cases hr : Remove fs (cachePath L x) with
    | mk fs1 err =>
      cases err with
      | some e =>
        rw [deleteImages_cons_err hr] at hok
        cases hok
      | none =>
        rw [deleteImages_cons_ok hr] at hok ⊢
        rcases List.mem_cons.mp hmem with rfl | hmem
        · rcases deleteImages_mono L rest fs1 (cachePath L image) with h | h
          · rw [h]
            exact Remove_ok_gone hr
          · exact h
        · exact ih fs1 hok image hmem

theorem deleteImages_frame (L : CacheLayout) (hL : L.Confined) :
    ∀ (images : List String) (fs : FS) (q : Path), ¬ L.ImageCacheDir <+: q →
      (deleteImages L images fs).1.kind q = fs.kind q := by
  intro images
  induction images with
  | nil =>
    intro fs q _
    rw [deleteImages_nil]
  | cons image rest ih =>
    intro fs q hq
    have hne : q ≠ cachePath L image := by
      rintro rfl
      exact hq (hL _)
    cases hr : Remove fs (cachePath L image) with
    | mk fs1 err =>
      have hk := @Remove_kind_of_ne fs (cachePath L image) q hne
      rw [hr] at hk
      cases err with
      | some e =>
        rw [deleteImages_cons_err hr]
        exact hk
      | none =>
        rw [deleteImages_cons_ok hr, ih fs1 q hq]
        exact hk

theorem DeleteFromImageCacheDir_eq (L : CacheLayout) (images : List String) (fs : FS) :
    DeleteFromImageCacheDir L images fs =
      if (deleteImages L images fs).2 = none then
        cleanImageCacheDir L (deleteImages L images fs).1
      else some (deleteImages L images fs) := by
  unfold DeleteFromImageCacheDir
  cases deleteImages L images fs with
  | mk fs1 err =>
    cases err <;> simp

/-- C5: `retrieveImage` is an ordered fallback chain. A successful daemon lookup
is returned and is the only lookup made; failing that, a successful keychain
lookup is returned after exactly the daemon and keychain lookups; failing both,
the result (image and error) is that of the anonymous lookup, made last. -/
theorem retrieveImage_fallback_chain (lib : Registry) (ref : Reference) :
    ((lib.daemonImage ref).2 = none →
      retrieveImage lib ref = ([Lookup.daemon], ((lib.daemonImage ref).1, none))) ∧
    ((lib.daemonImage ref).2 ≠ none → (lib.remoteImageKeychain ref).2 = none →
      retrieveImage lib ref =
        ([Lookup.daemon, Lookup.remoteKeychain], ((lib.remoteImageKeychain ref).1, none))) ∧
    ((lib.daemonImage ref).2 ≠ none → (lib.remoteImageKeychain ref).2 ≠ none →
      retrieveImage lib ref =
        ([Lookup.daemon, Lookup.remoteKeychain, Lookup.remoteAnonymous], lib.remoteImage ref)) := by
  refine ⟨fun h => ?_, fun h1 h2 => ?_, fun h1 h2 => ?_⟩
  · simp [retrieveImage, h]
  · simp [retrieveImage, h1, h2]
  · simp [retrieveImage, h1, h2]

/-- The three branches of the chain at concrete registries. -/
theorem retrieveImage_fallback_chain_witness :
    retrieveImage (exampleRegistry none none none none) ⟨"busybox"⟩ =
      ([Lookup.daemon], (⟨(⟨"sha256", "d0"⟩, none)⟩, none)) ∧
    retrieveImage (exampleRegistry none (some (.other "daemon")) none none) ⟨"busybox"⟩ =
      ([Lookup.daemon, Lookup.remoteKeychain], (⟨(⟨"sha256", "c1"⟩, none)⟩, none)) ∧
    retrieveImage (exampleRegistry none (some (.other "daemon")) (some (.other "authn"))
        (some (.other "anon"))) ⟨"busybox"⟩ =
      ([Lookup.daemon, Lookup.remoteKeychain, Lookup.remoteAnonymous],
        (⟨(⟨"sha256", "a2"⟩, some (.other "config"))⟩, some (.other "anon"))) :=
  ⟨(retrieveImage_fallback_chain (exampleRegistry none none none none) ⟨"busybox"⟩).1 rfl,
   (retrieveImage_fallback_chain (exampleRegistry none (some (.other "daemon")) none none)
      ⟨"busybox"⟩).2.1 (by decide) rfl,
   (retrieveImage_fallback_chain (exampleRegistry none (some (.other "daemon"))
      (some (.other "authn")) (some (.other "anon"))) ⟨"busybox"⟩).2.2 (by decide) (by decide)⟩

/-- C6: `DigestByRetrieve` is a total function into strings, and its value is
the empty string when the name does not parse, and when it parses but the
daemon, keychain and anonymous lookups all return an error. -/
theorem DigestByRetrieve_unresolvable (lib : Registry) (imgName : String) :
    ((lib.ParseReference imgName).2 ≠ none → DigestByRetrieve lib imgName = "") ∧
    ((lib.ParseReference imgName).2 = none →
      (lib.daemonImage (lib.ParseReference imgName).1).2 ≠ none →
      (lib.remoteImageKeychain (lib.ParseReference imgName).1).2 ≠ none →
      (lib.remoteImage (lib.ParseReference imgName).1).2 ≠ none →
      DigestByRetrieve lib imgName = "") := by
  refine ⟨fun h => ?_, fun h0 h1 h2 h3 => ?_⟩
  · simp [DigestByRetrieve, h]
  · simp [DigestByRetrieve, retrieveImage, h0, h1, h2, h3]

/-- A name that does not parse, and a name no lookup resolves. -/
theorem DigestByRetrieve_unresolvable_witness :
    DigestByRetrieve (exampleRegistry (some (.other "parse")) none none none) "::" = "" ∧
    DigestByRetrieve (exampleRegistry none (some (.other "daemon")) (some (.other "authn"))
      (some (.other "anon"))) "busybox" = "" :=
  ⟨(DigestByRetrieve_unresolvable (exampleRegistry (some (.other "parse")) none none none)
      "::").1 (by decide),
   (DigestByRetrieve_unresolvable (exampleRegistry none (some (.other "daemon"))
      (some (.other "authn")) (some (.other "anon"))) "busybox").2 rfl (by decide) (by decide)
      (by decide)⟩

/-- On the Go pair `(img, err)` the code returns `img.ID` unless `err` is an
error other than "no such image". -/
theorem DigestByLocalDaemon_pair (client : String → ImageInspect × Option Error)
    (imgName : String) :
    DigestByLocalDaemon client imgName =
      if (client imgName).2 = none ∨ (client imgName).2 = some Error.imageNotFound then
        (client imgName).1.ID
      else "" := by
  cases hc : (client imgName).2 with
  | none => simp [DigestByLocalDaemon, hc]
  | some e => cases e <;> simp [DigestByLocalDaemon, hc, IsErrImageNotFound]

/-- C7: for every response of the docker client, `DigestByLocalDaemon` equals
the reference: the reported identifier when the inspect call succeeds, the
empty string when the daemon reports "no such image" and when the call fails
in any other way. The result is a plain string; no error reaches the caller. -/
theorem DigestByLocalDaemon_eq_reference (resp : InspectResponse) (imgName : String) :
    DigestByLocalDaemon (fun _ => resp.toGo) imgName = DigestByLocalDaemon_reference resp := by
  rw [DigestByLocalDaemon_pair]
  cases resp <;> simp [InspectResponse.toGo, DigestByLocalDaemon_reference]

/-- C9: when the name parses, an image is resolved and `ConfigName` returns an
error, `DigestByRetrieve` returns the `Hex` field of the digest returned with
that error, the value the success branch returns too; hence the result is
empty exactly when that field is. -/
theorem DigestByRetrieve_configName_error (lib : Registry) (imgName : String)
    (hparse : (lib.ParseReference imgName).2 = none)
    (hfound : (retrieveImage lib (lib.ParseReference imgName).1).2.2 = none)
    (hconfig : (retrieveImage lib (lib.ParseReference imgName).1).2.1.ConfigName.2 ≠ none) :
    DigestByRetrieve lib imgName =
      (retrieveImage lib (lib.ParseReference imgName).1).2.1.ConfigName.1.Hex ∧
    (DigestByRetrieve lib imgName = "" ↔
      (retrieveImage lib (lib.ParseReference imgName).1).2.1.ConfigName.1.Hex = "") := by
  have h : DigestByRetrieve lib imgName =
      (retrieveImage lib (lib.ParseReference imgName).1).2.1.ConfigName.1.Hex := by
    simp [DigestByRetrieve, hparse, hfound, hconfig]
  exact ⟨h, by rw [h]⟩

/-- An image found only anonymously whose `ConfigName` fails with digest
`a2`: the result is `a2`, not the empty string. -/
theorem DigestByRetrieve_configName_error_witness :
    DigestByRetrieve (exampleRegistry none (some (.other "daemon")) (some (.other "authn")) none)
      "busybox" = "a2" :=
  (DigestByRetrieve_configName_error
    (exampleRegistry none (some (.other "daemon")) (some (.other "authn")) none) "busybox"
    rfl (by decide) (by decide)).1

theorem exampleLayout_confined : exampleLayout.Confined := by
  intro p
  show ["cache"] <+: (if ["cache"] <+: p then p else ["cache"])
  split_ifs with h
  · exact h
  · exact List.prefix_refl _

/-- The fail-fast case on `["a/sha256:1", "b/sha256:4", "a/sha256:2"]`, where
`b/sha256:4` does not exist: `a/sha256:2` stays and only two removals are made. -/
theorem DeleteFromImageCacheDir_fail_fast_witness :
    DeleteFromImageCacheDir exampleLayout ["a/sha256:1", "b/sha256:4", "a/sha256:2"] exampleFS =
      some (⟨[([], true), (["cache"], true), (["cache", "a"], true),
          (["cache", "a", "sha256:2"], false), (["cache", "b"], true),
          (["cache", "b", "sha256:3"], false), (["etc"], true), (["etc", "passwd"], false)],
        [.remove ["cache", "a", "sha256:1"], .remove ["cache", "b", "sha256:4"]]⟩,
        some (.errno .ENOENT)) :=
  (DeleteFromImageCacheDir_fail_fast exampleLayout exampleFS
    (deleteImages exampleLayout ["a/sha256:1"] exampleFS).1
    ⟨[([], true), (["cache"], true), (["cache", "a"], true),
          (["cache", "a", "sha256:2"], false), (["cache", "b"], true),
          (["cache", "b", "sha256:3"], false), (["etc"], true), (["etc", "passwd"], false)],
        [.remove ["cache", "a", "sha256:1"], .remove ["cache", "b", "sha256:4"]]⟩
    ["a/sha256:1", "b/sha256:4", "a/sha256:2"] 1 (by decide) (.errno .ENOENT) (by decide)
    (by decide)).1

/-- `filepath.Join` resolves `..` lexically and so leaves the cache root on a
traversal identifier: confinement rests on the sanitizer alone. -/
theorem Join_traversal : Join ["cache"] "../../etc/passwd" = ["etc", "passwd"] := by
  decide

/-- C2: given the sanitizer's contract, every path `DeleteFromImageCacheDir`
hands to `os.Remove` lies at or below the cache root, the call returns, and
whatever is at a path outside the cache root is the same before and after the
call (removal loop and sweep together). -/
theorem DeleteFromImageCacheDir_confined (L : CacheLayout) (hL : L.Confined)
    (images : List String) (fs : FS) :
    (∀ image, L.ImageCacheDir <+: cachePath L image) ∧
    ∃ r, DeleteFromImageCacheDir L images fs = some r ∧
      ∀ q, ¬ L.ImageCacheDir <+: q → r.1.kind q = fs.kind q := by
  refine ⟨fun image => hL _, ?_⟩
  rw [DeleteFromImageCacheDir_eq]
  split_ifs with hok
  · obtain ⟨r, hr⟩ := cleanImageCacheDir_total L (deleteImages L images fs).1
    refine ⟨r, hr, fun q hq => ?_⟩
    rcases cleanImageCacheDir_shrink hr q with e | ⟨_, _, hu, _⟩
    · rw [e]
      exact deleteImages_frame L hL images fs q hq
    · exact absurd hu hq
  · exact ⟨_, rfl, fun q hq => deleteImages_frame L hL images fs q hq⟩

/-- The identifier `../../etc/passwd`: the removed path is confined and
`/etc/passwd` is still there after the call. -/
theorem DeleteFromImageCacheDir_confined_witness :
    ["cache"] <+: cachePath exampleLayout "../../etc/passwd" ∧
    ∃ r, DeleteFromImageCacheDir exampleLayout ["../../etc/passwd"] exampleFS = some r ∧
      r.1.kind ["etc", "passwd"] = some false :=
  ⟨(DeleteFromImageCacheDir_confined exampleLayout exampleLayout_confined
      ["../../etc/passwd"] exampleFS).1 "../../etc/passwd",
   (DeleteFromImageCacheDir_confined exampleLayout exampleLayout_confined
      ["../../etc/passwd"] exampleFS).2.elim
      (fun r h => ⟨r, h.1, (h.2 ["etc", "passwd"] (by decide)).trans (by decide)⟩)⟩

theorem kind_ne_of_some {fs : FS} {q : Path} {d : Bool} (h : fs.kind q = some d) :
    fs.kind q ≠ none := by
  rw [h]
  exact Option.some_ne_none d

theorem cleanImageCacheDir_empty_root {L : CacheLayout} {fs : FS}
    (h : fs.emptyDir L.ImageCacheDir) :
    cleanImageCacheDir L fs =
      some (Remove (((fs.log (.lstat L.ImageCacheDir)).log (.readdir L.ImageCacheDir)).log
        (.readdir L.ImageCacheDir)) L.ImageCacheDir) := by
  rw [cleanImageCacheDir_present h.1]
  show (walk cleanWalkFn (_ + 1) _ _ _).map _ = _
  rw [@walk_dir_empty _ L.ImageCacheDir (fs.log (.lstat L.ImageCacheDir)) h.1 h.2]
  rcases Remove_cases (((fs.log (.lstat L.ImageCacheDir)).log (.readdir L.ImageCacheDir)).log
      (.readdir L.ImageCacheDir)) L.ImageCacheDir with ⟨e, he⟩ | ⟨he, hk⟩
  · have hk : fs.kind L.ImageCacheDir = some true := h.1
    have hn : fs.names L.ImageCacheDir = [] := h.2
    by_cases hp : L.ImageCacheDir = []
    · rw [hp] at hk ⊢
      rw [@Remove_slash (((fs.log (.lstat [])).log (.readdir [])).log (.readdir [])) hk]
      rfl
    · rw [@Remove_empty_dir (((fs.log (.lstat L.ImageCacheDir)).log
        (.readdir L.ImageCacheDir)).log (.readdir L.ImageCacheDir)) L.ImageCacheDir hk hp hn]
      rfl
  · rw [he]
    rfl

/-- C3, as stated, fails: on a well-formed state whose cache root is an empty
directory the sweep removes the cache root. -/
theorem cleanImageCacheDir_removes_empty_root :
    ¬ ∀ (L : CacheLayout) (fs : FS), fs.WF → fs.kind L.ImageCacheDir = some true →
        ∀ r, cleanImageCacheDir L fs = some r → r.1.kind L.ImageCacheDir = some true := by
  intro h
  have := h exampleLayout emptyRootFS (by decide) (by decide)
    (⟨[([], true)], [.lstat ["cache"], .readdir ["cache"], .readdir ["cache"],
      .remove ["cache"]]⟩, none) (by decide)
  revert this
  decide

/-- C3, amended: a cache root that is a non-empty directory when the sweep
starts is still a directory after `cleanImageCacheDir`, and after
`DeleteFromImageCacheDir` when it is a non-empty directory at the end of the
removal loop; a cache root that is an empty directory (and not `/`) is removed
by the sweep; whatever the sweep removes is an empty directory at or below the
cache root. -/
theorem cleanImageCacheDir_root (L : CacheLayout) :
    (∀ fs : FS, fs.kind L.ImageCacheDir = some true → fs.names L.ImageCacheDir ≠ [] →
      ∃ r, cleanImageCacheDir L fs = some r ∧ r.1.kind L.ImageCacheDir = some true) ∧
    (∀ (images : List String) (fs : FS),
      (deleteImages L images fs).1.kind L.ImageCacheDir = some true →
      (deleteImages L images fs).1.names L.ImageCacheDir ≠ [] →
      ∃ r, DeleteFromImageCacheDir L images fs = some r ∧
        r.1.kind L.ImageCacheDir = some true) ∧
    (∀ fs : FS, fs.emptyDir L.ImageCacheDir → L.ImageCacheDir ≠ [] →
      ∃ r, cleanImageCacheDir L fs = some r ∧ r.1.kind L.ImageCacheDir = none) ∧
    (∀ (fs : FS) (r : FS × Option Error), cleanImageCacheDir L fs = some r →
      ∀ q, r.1.kind q ≠ fs.kind q →
        r.1.kind q = none ∧ fs.emptyDir q ∧ L.ImageCacheDir <+: q) := by
  have hkeep : ∀ fs : FS, fs.kind L.ImageCacheDir = some true → fs.names L.ImageCacheDir ≠ [] →
      ∃ r, cleanImageCacheDir L fs = some r ∧ r.1.kind L.ImageCacheDir = some true := by
    intro fs hk hn
    obtain ⟨r, hr⟩ := cleanImageCacheDir_total L fs
    refine ⟨r, hr, ?_⟩
    rcases cleanImageCacheDir_shrink hr L.ImageCacheDir with e | ⟨_, _, _, c⟩
    · rw [e]
      exact hk
    · exact absurd ((names_eq_nil_iff fs _).mpr c) hn
  refine ⟨hkeep, ?_, ?_, ?_⟩
  · intro images fs hk hn
    rw [DeleteFromImageCacheDir_eq]
    split_ifs with hok
    · exact hkeep _ hk hn
    · exact ⟨_, rfl, hk⟩
  · intro fs he hp
    refine ⟨_, cleanImageCacheDir_empty_root he, ?_⟩
    rw [@Remove_empty_dir (((fs.log (.lstat L.ImageCacheDir)).log
      (.readdir L.ImageCacheDir)).log (.readdir L.ImageCacheDir)) L.ImageCacheDir he.1 hp he.2]
    show (FS.mk _ _).kind _ = none
    rw [kind_filter, if_pos rfl]
  · intro fs r hr q hq
    rcases cleanImageCacheDir_shrink hr q with e | ⟨e, hd, hu, c⟩
    · exact absurd e hq
    · exact ⟨e, ⟨hd, (names_eq_nil_iff fs q).mpr c⟩, hu⟩

/-- The non-empty cache root of `exampleFS` survives the sweep and the deletion
of `a/sha256:1`; the empty cache root of `emptyRootFS` does not survive. -/
theorem cleanImageCacheDir_root_witness :
    (∃ r, cleanImageCacheDir exampleLayout exampleFS = some r ∧
      r.1.kind ["cache"] = some true) ∧
    (∃ r, DeleteFromImageCacheDir exampleLayout ["a/sha256:1"] exampleFS = some r ∧
      r.1.kind ["cache"] = some true) ∧
    (∃ r, cleanImageCacheDir exampleLayout emptyRootFS = some r ∧ r.1.kind ["cache"] = none) :=
  ⟨(cleanImageCacheDir_root exampleLayout).1 exampleFS (by decide) (by decide),
   (cleanImageCacheDir_root exampleLayout).2.1 ["a/sha256:1"] exampleFS (by decide) (by decide),
   (cleanImageCacheDir_root exampleLayout).2.2.1 emptyRootFS (by decide) (by decide)⟩

/-- C4, as stated, fails: on `/cache/a/b` with `b` empty the first sweep
succeeds and removes `b`, and the second sweep then removes `a`. -/
theorem cleanImageCacheDir_not_idempotent :
    ¬ ∀ (L : CacheLayout) (fs : FS) (r1 : FS × Option Error), fs.WF →
        cleanImageCacheDir L fs = some r1 → r1.2 = none →
        ∃ r2, cleanImageCacheDir L r1.1 = some r2 ∧ r2.2 = none ∧
          r2.1.entries = r1.1.entries := by
  intro h
  obtain ⟨r2, h2, _, h3⟩ := h exampleLayout nestedFS
    ((cleanImageCacheDir exampleLayout nestedFS).getD (nestedFS, none)) (by decide) (by decide)
    (by decide)
  have h4 : (cleanImageCacheDir exampleLayout
      ((cleanImageCacheDir exampleLayout nestedFS).getD (nestedFS, none)).1).map
        (fun r => r.1.entries) =
      some ((cleanImageCacheDir exampleLayout nestedFS).getD (nestedFS, none)).1.entries := by
    rw [h2, Option.map_some', h3]
  revert h4
  decide

/-- C4, amended: on a well-formed state on which the sweep succeeds and in
which every non-empty directory at or below the cache root has an entry that
is not an empty directory, a second sweep returns no error and leaves the
entries as the first sweep left them. -/
theorem cleanImageCacheDir_idempotent (L : CacheLayout) (fs : FS) (r1 : FS × Option Error)
    (hwf : fs.WF) (h1 : cleanImageCacheDir L fs = some r1) (hok : r1.2 = none)
    (hcond : ∀ e ∈ fs.entries, L.ImageCacheDir <+: e.1 → fs.kind e.1 = some true →
      fs.names e.1 ≠ [] → ∃ n ∈ fs.names e.1, ¬ fs.emptyDir (e.1 ++ [n])) :
    ∃ r2, cleanImageCacheDir L r1.1 = some r2 ∧ r2.2 = none ∧ r2.1.entries = r1.1.entries := by
  have hs := cleanImageCacheDir_shrink h1
  obtain ⟨r2, h2⟩ := cleanImageCacheDir_total L r1.1
  refine ⟨r2, h2, (cleanImageCacheDir_noop h2 ?_).2, (cleanImageCacheDir_noop h2 ?_).1⟩ <;>
  · intro q hq he
    have hq1 : r1.1.kind q ≠ none := kind_ne_of_some he.1
    have hk : fs.kind q = some true := (kind_of_shrink_ne_none hs hq1).trans he.1
    by_cases hn : fs.names q = []
    · have hroot : L.ImageCacheDir ≠ [] ∨ fs.names L.ImageCacheDir ≠ [] := by
        by_cases hp : L.ImageCacheDir = []
        · right
          intro hn0
          have hr0 : fs.emptyDir L.ImageCacheDir := by
            refine ⟨?_, hn0⟩
            rcases under_cases hq with rfl | ⟨n, hnq⟩
            · exact hk
            · exact (wf_iff fs).mp hwf q _ (kind_ne_of_some hk) hq (by
                rintro rfl
                exact wf_child_exists hwf (kind_ne_of_some hk) hnq
                  ((names_eq_nil_iff fs _).mp hn0 n))
          have h0 := cleanImageCacheDir_empty_root hr0
          rw [h1] at h0
          have hk0 := hr0.1
          rw [hp] at h0 hk0
          rw [@Remove_slash (((fs.log (.lstat [])).log (.readdir [])).log (.readdir []))
            hk0] at h0
          rw [Option.some.inj h0] at hok
          cases hok
        · exact Or.inl hp
      exact hq1 ((cleanImageCacheDir_reach h1 hwf hroot).2 q hq ⟨hk, hn⟩)
    · obtain ⟨e, he1, rfl⟩ := (kind_ne_none_iff fs q).mp (kind_ne_of_some hk)
      obtain ⟨n, hmem, hne⟩ := hcond e he1 hq hk hn
      have hgone : r1.1.kind (e.1 ++ [n]) = none := (names_eq_nil_iff _ _).mp he.2 n
      rcases hs (e.1 ++ [n]) with e2 | ⟨_, hd, _, c⟩
      · exact (mem_names fs e.1 n).mp hmem (e2 ▸ hgone)
      · exact hne ⟨hd, (names_eq_nil_iff fs _).mpr c⟩

/-- A state whose only empty directory is `/cache/x`: the first sweep removes
it, the second sweep changes nothing. -/
theorem cleanImageCacheDir_idempotent_witness :
    ∃ r2, cleanImageCacheDir exampleLayout
        ((cleanImageCacheDir exampleLayout sweepableFS).getD (sweepableFS, none)).1 = some r2 ∧
      r2.2 = none ∧
      r2.1.entries = [([], true), (["cache"], true), (["cache", "a"], true),
        (["cache", "a", "sha256:1"], false)] :=
  (cleanImageCacheDir_idempotent exampleLayout sweepableFS
    ((cleanImageCacheDir exampleLayout sweepableFS).getD (sweepableFS, none))
    (by decide) (by decide) (by decide) (by decide)).elim
    (fun r2 h => ⟨r2, h.1, h.2.1, h.2.2.trans (by decide)⟩)

/-- C8: let `d` be a directory strictly below the cache root, in a well-formed
state, all of whose entries are non-directories that the list names (through
`cachePath`). If every removal of the loop succeeds, then
`DeleteFromImageCacheDir` returns and `d` no longer exists afterwards. -/
theorem DeleteFromImageCacheDir_removes_emptied_dir (L : CacheLayout) (fs : FS) (hwf : fs.WF)
    (images : List String) (d : Path)
    (hd : L.ImageCacheDir <+: d) (hne : d ≠ L.ImageCacheDir) (hdir : fs.kind d = some true)
    (hfiles : ∀ n ∈ fs.names d,
      fs.kind (d ++ [n]) = some false ∧ ∃ image ∈ images, cachePath L image = d ++ [n])
    (hok : (deleteImages L images fs).2 = none) :
    ∃ r, DeleteFromImageCacheDir L images fs = some r ∧ r.1.kind d = none := by
  rw [DeleteFromImageCacheDir_eq, if_pos hok]
  obtain ⟨r, hr⟩ := cleanImageCacheDir_total L (deleteImages L images fs).1
  refine ⟨r, hr, ?_⟩
  have hs := cleanImageCacheDir_shrink hr
  have hwf1 := deleteImages_wf L images fs hwf
  rcases deleteImages_mono L images fs d with hk | hk
  · rw [hdir] at hk
    have hempty : (deleteImages L images fs).1.emptyDir d := by
      refine ⟨hk, (names_eq_nil_iff _ _).mpr fun n => ?_⟩
      rcases deleteImages_mono L images fs (d ++ [n]) with h | h
      · by_cases hex : fs.kind (d ++ [n]) = none
        · rw [h]
          exact hex
        · obtain ⟨_, image, himg, hpath⟩ := hfiles n ((mem_names fs d n).mpr hex)
          rw [← hpath]
          exact deleteImages_gone L images fs hok image himg
      · exact h
    have hroot : L.ImageCacheDir ≠ [] ∨ (deleteImages L images fs).1.names L.ImageCacheDir ≠ [] := by
      right
      rcases under_cases hd with h | ⟨n, hn⟩
      · exact absurd h hne
      · exact (names_ne_nil_iff _ _).mpr ⟨n, wf_child_exists hwf1 (kind_ne_of_some hk) hn⟩
    exact (cleanImageCacheDir_reach hr hwf1 hroot).2 d hd hempty
  · exact kind_none_of_shrink hs hk

/-- Deleting `a/sha256:1` and `a/sha256:2`, the only entries of `a/`, removes
`/cache/a`. -/
theorem DeleteFromImageCacheDir_removes_emptied_dir_witness :
    ∃ r, DeleteFromImageCacheDir exampleLayout ["a/sha256:1", "a/sha256:2"] exampleFS = some r ∧
      r.1.kind ["cache", "a"] = none :=
  DeleteFromImageCacheDir_removes_emptied_dir exampleLayout exampleFS (by decide)
    ["a/sha256:1", "a/sha256:2"] ["cache", "a"] (by decide) (by decide) (by decide) (by decide)
    (by decide)

/-- C10: the sweep returns, whether with an error or not, and afterwards every
non-directory is still there, every directory that had an entry is still a
directory, and whatever is no longer as before is an empty directory at or
below the cache root that is now gone (nothing is created or changes kind).
A directory that has an entry when it is visited had it from the start, since
the sweep creates nothing. -/
theorem cleanImageCacheDir_removes_only_empty_dirs (L : CacheLayout) (fs : FS) :
    ∃ r, cleanImageCacheDir L fs = some r ∧
      (∀ q, fs.kind q = some false → r.1.kind q = some false) ∧
      (∀ q, fs.kind q = some true → fs.names q ≠ [] → r.1.kind q = some true) ∧
      (∀ q, r.1.kind q ≠ fs.kind q →
        r.1.kind q = none ∧ fs.emptyDir q ∧ L.ImageCacheDir <+: q) := by
  obtain ⟨r, hr⟩ := cleanImageCacheDir_total L fs
  have hs := cleanImageCacheDir_shrink hr
  refine ⟨r, hr, fun q hq => ?_, fun q hq hn => ?_, fun q hq => ?_⟩
  · rcases hs q with e | ⟨_, hd, _, _⟩
    · rw [e]
      exact hq
    · rw [hq] at hd
      cases hd
  · rcases hs q with e | ⟨_, _, _, c⟩
    · rw [e]
      exact hq
    · exact absurd ((names_eq_nil_iff fs q).mpr c) hn
  · rcases hs q with e | ⟨e, hd, hu, c⟩
    · exact absurd e hq
    · exact ⟨e, ⟨hd, (names_eq_nil_iff fs q).mpr c⟩, hu⟩

end Minikube
